import Mathlib

/-!
Shallow embedding of the CV editor's section-tree model and its
persistence layer, translated from `src/components/CVEditor.tsx` and
`src/components/CVSidebar.tsx`, together with proofs of the specified
properties of `update`, `insertChild`, `createSection` and the
document store.
-/

namespace CV

/-- The `type` field of a section: one of the string literals
`container`, `text`, `image`. -/
inductive SectionType where
  | container
  | text
  | image
deriving DecidableEq, Repr

/-- The `styles` record of a section.  `CVEditor.tsx` declares and creates
sections whose styles hold only `backgroundColor`, `padding` and `margin`;
`CVSection.tsx` declares three further border fields and writes them when a
style dialog is saved.  At runtime the border keys are therefore present on
some section objects and absent on others, which the embedding models with
`Option` fields (`none` meaning the key is absent from the object). -/
structure Styles where
  backgroundColor : String
  padding : String
  margin : String
  borderStyle : Option String
  borderWidth : Option String
  borderColor : Option String
deriving DecidableEq, Repr

/-- The `Section` interface of `CVEditor.tsx`: `id`, `type`, `content`,
`styles`, `children` (an ordered sequence of sections). -/
inductive Section where
  | mk (id : String) (type : SectionType) (content : String)
      (styles : Styles) (children : List Section)

def Section.id : Section → String
  | .mk i _ _ _ _ => i

def Section.type : Section → SectionType
  | .mk _ t _ _ _ => t

def Section.content : Section → String
  | .mk _ _ c _ _ => c

def Section.styles : Section → Styles
  | .mk _ _ _ st _ => st

def Section.children : Section → List Section
  | .mk _ _ _ _ cs => cs

/-- The `CVData` interface of `CVEditor.tsx`: a document is a forest of
top-level sections. -/
structure CVData where
  sections : List Section

/-- A value of TypeScript type `Partial Section`: an object holding a
subset of the section fields; `none` models a field that is absent from
the object. -/
structure SectionUpdates where
  id : Option String
  type : Option SectionType
  content : Option String
  styles : Option Styles
  children : Option (List Section)

/-- The object-spread merge of `updates` into `section` performed by
`updateSectionRecursive`: every field present in `updates` fully replaces
the corresponding field of the section. -/
def spreadMerge (s : Section) (updates : SectionUpdates) : Section :=
  Section.mk (updates.id.getD s.id) (updates.type.getD s.type)
    (updates.content.getD s.content) (updates.styles.getD s.styles)
    (updates.children.getD s.children)

mutual

/-- The callback of `sections.map` inside `updateSectionRecursive` of
`CVEditor.tsx`: on an id match, spread-merge the updates and stop
descending; otherwise descend into nonempty children; otherwise return the
node unchanged. -/
def updateSectionNode (sectionId : String) (updates : SectionUpdates) :
    Section → Section
  | .mk i t c st cs =>
    if i = sectionId then spreadMerge (Section.mk i t c st cs) updates
    else if cs.length > 0 then
      Section.mk i t c st (updateSectionRecursive sectionId updates cs)
    else Section.mk i t c st cs

/-- `updateSectionRecursive` from `updateSection` in `CVEditor.tsx`,
mapping `updateSectionNode` over a sequence of sibling sections. -/
def updateSectionRecursive (sectionId : String) (updates : SectionUpdates) :
    List Section → List Section
  | [] => []
  | s :: rest =>
      updateSectionNode sectionId updates s ::
        updateSectionRecursive sectionId updates rest

end

/-- The pure part of `updateSection` in `CVEditor.tsx`: the `updatedData`
value built from the current document (the subsequent `saveCVData` call is
modelled separately). -/
def updateSection (sectionId : String) (updates : SectionUpdates)
    (cvData : CVData) : CVData :=
  CVData.mk (updateSectionRecursive sectionId updates cvData.sections)

/-- The `newSection` literal of `addSection` in `CVEditor.tsx`;
`crypto.randomUUID()` is modelled by the injected `freshId` parameter. -/
def newSection (freshId : String) : Section :=
  Section.mk freshId SectionType.container ""
    (Styles.mk "transparent" "10px" "0px" none none none) []

mutual

/-- The callback of `sections.map` inside `addSectionRecursive` of
`CVEditor.tsx` (closed over `parentId` and the minted section `n`). -/
def addSectionNode (parentId : String) (n : Section) : Section → Section
  | .mk i t c st cs =>
    if i = parentId then Section.mk i t c st (cs ++ [n])
    else if cs.length > 0 then
      Section.mk i t c st (addSectionRecursive parentId n cs)
    else Section.mk i t c st cs

/-- `addSectionRecursive` from `addSection` in `CVEditor.tsx`. -/
def addSectionRecursive (parentId : String) (n : Section) :
    List Section → List Section
  | [] => []
  | s :: rest =>
      addSectionNode parentId n s :: addSectionRecursive parentId n rest

end

/-- The layout-intent hint passed to `addSection`; the tree model does not
branch on it. -/
inductive Direction where
  | horizontal
  | vertical

/-- The pure part of `addSection` in `CVEditor.tsx`: mints `newSection`
with a fresh identifier and appends it to the children of the node
matching `parentId`. -/
def addSection (freshId : String) (parentId : String)
    (direction : Direction) (cvData : CVData) : CVData :=
  CVData.mk (addSectionRecursive parentId (newSection freshId) cvData.sections)

/-- One `addSection` call of a call sequence: the minted identifier, the
target parent and the layout hint. -/
structure AddOp where
  freshId : String
  parentId : String
  direction : Direction

/-- A sequence of `addSection` calls applied in order to a document. -/
def applyAddOps (ops : List AddOp) (d : CVData) : CVData :=
  ops.foldl (fun acc o => addSection o.freshId o.parentId o.direction acc) d

mutual

/-- All identifiers occurring in a section's subtree, in depth-first
order. -/
def sectionIds : Section → List String
  | .mk i _ _ _ cs => i :: forestIds cs

/-- All identifiers occurring in a forest, in depth-first order. -/
def forestIds : List Section → List String
  | [] => []
  | s :: rest => sectionIds s ++ forestIds rest

end

mutual

/-- Reference transform for the targeted-update property: every node keeps
its identity, type, styles and children, except that a node whose id
matches gets content `y`; the whole forest is traversed. -/
def contentReplacedNode (sectionId y : String) : Section → Section
  | .mk i t c st cs =>
      Section.mk i t (if i = sectionId then y else c) st
        (contentReplacedAt sectionId y cs)

/-- Forest version of `contentReplacedNode`. -/
def contentReplacedAt (sectionId y : String) : List Section → List Section
  | [] => []
  | s :: rest =>
      contentReplacedNode sectionId y s :: contentReplacedAt sectionId y rest

end

mutual

/-- Reference transform for the children-replacement property: the node
whose id matches has its entire children sequence replaced by `c`
(installed as supplied, not traversed); every other node is kept with its
children rewritten recursively. -/
def childrenReplacedNode (sectionId : String) (c : List Section) :
    Section → Section
  | .mk i t cn st cs =>
      if i = sectionId then Section.mk i t cn st c
      else Section.mk i t cn st (childrenReplacedAt sectionId c cs)

/-- Forest version of `childrenReplacedNode`. -/
def childrenReplacedAt (sectionId : String) (c : List Section) :
    List Section → List Section
  | [] => []
  | s :: rest =>
      childrenReplacedNode sectionId c s :: childrenReplacedAt sectionId c rest

end

mutual

/-- Reference transform for the insert-appends property: every node keeps
all its fields with children rewritten recursively, and a node whose id
matches the parent additionally gets `n` appended at the end of its
children. -/
def childAppendedNode (parentId : String) (n : Section) : Section → Section
  | .mk i t cn st cs =>
      Section.mk i t cn st
        (childAppendedAt parentId n cs ++ if i = parentId then [n] else [])

/-- Forest version of `childAppendedNode`. -/
def childAppendedAt (parentId : String) (n : Section) :
    List Section → List Section
  | [] => []
  | s :: rest =>
      childAppendedNode parentId n s :: childAppendedAt parentId n rest

end

/-- JSON values: the results of `JSON.parse` and arguments of
`JSON.stringify`.  Constructors cover the shapes this application can
store, plus `null` as a scalar of the wrong shape. -/
inductive Json where
  | null
  | str (s : String)
  | arr (elems : List Json)
  | obj (fields : List (String × Json))

/-- Key lookup in a JSON object's field list (JavaScript property
access), and in the string-keyed localStorage map. -/
def lookupKey : List (String × Json) → String → Option Json
  | [], _ => none
  | (k, v) :: rest, key => if k = key then some v else lookupKey rest key

/-- The JSON form of a section `type` value. -/
def typeToJson : SectionType → Json
  | .container => .str "container"
  | .text => .str "text"
  | .image => .str "image"

/-- The JSON form of a styles record under `JSON.stringify`: keys in the
literal order of the source objects; an `Option` field that is `none`
produces no key at all, exactly as a key absent from the runtime object. -/
def stylesToJson (st : Styles) : Json :=
  Json.obj
    ([("backgroundColor", Json.str st.backgroundColor),
      ("padding", Json.str st.padding),
      ("margin", Json.str st.margin)]
      ++ (match st.borderStyle with
          | some v => [("borderStyle", Json.str v)]
          | none => [])
      ++ (match st.borderWidth with
          | some v => [("borderWidth", Json.str v)]
          | none => [])
      ++ (match st.borderColor with
          | some v => [("borderColor", Json.str v)]
          | none => []))

mutual

/-- The JSON form of a section under `JSON.stringify`. -/
def sectionToJson : Section → Json
  | .mk i t c st cs =>
      Json.obj
        [("id", Json.str i), ("type", typeToJson t),
         ("content", Json.str c), ("styles", stylesToJson st),
         ("children", Json.arr (forestToJson cs))]

/-- The JSON forms of a forest's sections, in order. -/
def forestToJson : List Section → List Json
  | [] => []
  | s :: rest => sectionToJson s :: forestToJson rest

end

/-- The JSON form of a whole document under `JSON.stringify`. -/
def cvDataToJson (d : CVData) : Json :=
  Json.obj [("sections", Json.arr (forestToJson d.sections))]

/-- localStorage, restricted to this application's keys: a string-keyed
store.  Values are kept as parsed JSON ASTs, collapsing
`JSON.parse (JSON.stringify v) = v` on the concrete syntax. -/
abbrev Store := List (String × Json)

/-- localStorage `setItem`: the new binding shadows any prior value of the
key, so the prior value is fully overwritten. -/
def setItem (key : String) (value : Json) (st : Store) : Store :=
  (key, value) :: st

/-- localStorage `getItem`: `none` when no record exists under the key. -/
def getItem (key : String) (st : Store) : Option Json :=
  lookupKey st key

/-- `saveCVData` from `CVEditor.tsx`: stringify the document and persist
it under the key `cv_` followed by the selected CV id. -/
def saveCVData (selectedCVId : String) (data : CVData) (st : Store) : Store :=
  setItem ("cv_" ++ selectedCVId) (cvDataToJson data) st

/-- The load effect of `CVEditor.tsx`: read the stored value under the
`cv_` key.  A `some j` result means the component state is set to the
parsed value `j` with no shape validation; `none` means no record exists
and nothing is loaded. -/
def loadCV (st : Store) (selectedCVId : String) : Option Json :=
  getItem ("cv_" ++ selectedCVId) st

/-- The `initialCVData` literal of `createNewCV` in `CVSidebar.tsx`; the
root section's `crypto.randomUUID()` is the injected `rootId`. -/
def initialCVData (rootId : String) : CVData :=
  CVData.mk
    [Section.mk rootId SectionType.container ""
      (Styles.mk "transparent" "20px" "0px" none none none) []]

/-- The document-store part of `createNewCV` in `CVSidebar.tsx`: persist
the initial one-root document under the new CV's key (the registry entry
and the toast are outside the modelled core). -/
def createNewCV (newCvId : String) (rootId : String) (st : Store) : Store :=
  setItem ("cv_" ++ newCvId) (cvDataToJson (initialCVData rootId)) st

/-- Reading an optional JSON value as a string field. -/
def asString : Option Json → Option String
  | some (.str s) => some s
  | _ => none

/-- Reading an optional JSON value as a section `type`. -/
def jsonToType : Option Json → Option SectionType
  | some (.str "container") => some SectionType.container
  | some (.str "text") => some SectionType.text
  | some (.str "image") => some SectionType.image
  | _ => none

/-- Reading a JSON value back as a styles record of the persisted shape:
the three base keys are required, the three border keys are optional. -/
def jsonToStyles : Json → Option Styles
  | .obj fs =>
      match asString (lookupKey fs "backgroundColor"),
          asString (lookupKey fs "padding"),
          asString (lookupKey fs "margin") with
      | some bg, some pad, some mar =>
          some (Styles.mk bg pad mar
            (asString (lookupKey fs "borderStyle"))
            (asString (lookupKey fs "borderWidth"))
            (asString (lookupKey fs "borderColor")))
      | _, _, _ => none
  | _ => none

mutual

/-- Reading a parsed JSON value back as a `Section`: the persisted record
shape, which the code checks only implicitly by duck-typed field access. -/
def jsonToSection (j : Json) : Option Section :=
  match j with
  | .obj fs =>
      match _h : lookupKey fs "children" with
      | some (.arr xs) =>
          match asString (lookupKey fs "id"), jsonToType (lookupKey fs "type"),
              asString (lookupKey fs "content"),
              (lookupKey fs "styles").bind jsonToStyles,
              jsonToForest xs with
          | some i, some t, some c, some st, some cs =>
              some (Section.mk i t c st cs)
          | _, _, _, _, _ => none
      | _ => none
  | _ => none
  termination_by sizeOf j
  decreasing_by
    have key_bound : ∀ (l : List (String × Json)) (v : Json),
        lookupKey l "children" = some v → sizeOf v < sizeOf l := by
      intro l
      induction l with
      | nil => intro v hv; simp [lookupKey] at hv
      | cons p rest ih =>
          intro v hv
          obtain ⟨k, w⟩ := p
          simp only [lookupKey] at hv
          by_cases hk : k = "children"
          · rw [if_pos hk] at hv
            cases hv
            simp only [List.cons.sizeOf_spec, Prod.mk.sizeOf_spec]
            omega
          · rw [if_neg hk] at hv
            have := ih v hv
            simp only [List.cons.sizeOf_spec, Prod.mk.sizeOf_spec]
            omega
    have harr := key_bound fs (Json.arr xs) _h
    simp only [Json.arr.sizeOf_spec] at harr
    simp only [Json.obj.sizeOf_spec]
    omega

/-- Reading a JSON array back as a forest of sections, in order. -/
def jsonToForest (js : List Json) : Option (List Section) :=
  match js with
  | [] => some []
  | j :: rest =>
      match jsonToSection j, jsonToForest rest with
      | some s, some ss => some (s :: ss)
      | _, _ => none
  termination_by sizeOf js

end

/-- Reading a parsed JSON value back as a whole `CVData` document. -/
def jsonToCVData (j : Json) : Option CVData :=
  match j with
  | .obj fs =>
      match lookupKey fs "sections" with
      | some (.arr xs) => (jsonToForest xs).map CVData.mk
      | _ => none
  | _ => none

end CV

namespace CV

/-- A styles value used by the concrete witness inputs. -/
def wStyles : Styles := Styles.mk "transparent" "10px" "0px" none none none

/-- A small two-level forest used by the concrete witness inputs. -/
def wForest : List Section :=
  [Section.mk "a" SectionType.container "x" wStyles
    [Section.mk "b" SectionType.text "x" wStyles []],
   Section.mk "c" SectionType.text "z" wStyles []]

/-- The witness forest packaged as a document. -/
def wData : CVData := CVData.mk wForest

theorem forestIds_append (a b : List Section) :
    forestIds (a ++ b) = forestIds a ++ forestIds b := by
  induction a with
  | nil => simp [forestIds]
  | cons s rest ih => simp [forestIds, ih]

theorem updateRec_miss (i : String) (u : SectionUpdates) :
    ∀ ss : List Section, i ∉ forestIds ss →
      updateSectionRecursive i u ss = ss := by
  refine forestIds.induct
    (fun s => i ∉ sectionIds s → updateSectionNode i u s = s)
    (fun ts => i ∉ forestIds ts → updateSectionRecursive i u ts = ts)
    ?_ ?_ ?_
  · intro d t c st cs ih h
    simp only [sectionIds, List.mem_cons] at h
    push_neg at h
    obtain ⟨h1, h2⟩ := h
    have h1x : ¬ d = i := fun e => h1 e.symm
    simp only [updateSectionNode, if_neg h1x]
    by_cases hc : cs.length > 0
    · rw [if_pos hc, ih h2]
    · rw [if_neg hc]
  · intro _
    rfl
  · intro s rest ih1 ih2 h
    simp only [forestIds, List.mem_append] at h
    push_neg at h
    simp only [updateSectionRecursive, ih1 h.1, ih2 h.2]

theorem addRec_miss (pid : String) (n : Section) :
    ∀ ss : List Section, pid ∉ forestIds ss →
      addSectionRecursive pid n ss = ss := by
  refine forestIds.induct
    (fun s => pid ∉ sectionIds s → addSectionNode pid n s = s)
    (fun ts => pid ∉ forestIds ts → addSectionRecursive pid n ts = ts)
    ?_ ?_ ?_
  · intro d t c st cs ih h
    simp only [sectionIds, List.mem_cons] at h
    push_neg at h
    obtain ⟨h1, h2⟩ := h
    have h1x : ¬ d = pid := fun e => h1 e.symm
    simp only [addSectionNode, if_neg h1x]
    by_cases hc : cs.length > 0
    · rw [if_pos hc, ih h2]
    · rw [if_neg hc]
  · intro _
    rfl
  · intro s rest ih1 ih2 h
    simp only [forestIds, List.mem_append] at h
    push_neg at h
    simp only [addSectionRecursive, ih1 h.1, ih2 h.2]

theorem addNode_miss (pid : String) (n : Section) (s : Section)
    (h : pid ∉ sectionIds s) : addSectionNode pid n s = s := by
  have h1 : pid ∉ forestIds [s] := by
    simp only [forestIds, List.append_nil]
    exact h
  have h2 := addRec_miss pid n [s] h1
  simp only [addSectionRecursive] at h2
  injection h2

theorem contentReplacedAt_miss (i y : String) :
    ∀ ss : List Section, i ∉ forestIds ss →
      contentReplacedAt i y ss = ss := by
  refine forestIds.induct
    (fun s => i ∉ sectionIds s → contentReplacedNode i y s = s)
    (fun ts => i ∉ forestIds ts → contentReplacedAt i y ts = ts)
    ?_ ?_ ?_
  · intro d t c st cs ih h
    simp only [sectionIds, List.mem_cons] at h
    push_neg at h
    obtain ⟨h1, h2⟩ := h
    have h1x : ¬ d = i := fun e => h1 e.symm
    simp only [contentReplacedNode, if_neg h1x, ih h2]
  · intro _
    rfl
  · intro s rest ih1 ih2 h
    simp only [forestIds, List.mem_append] at h
    push_neg at h
    simp only [contentReplacedAt, ih1 h.1, ih2 h.2]

theorem childAppendedAt_miss (pid : String) (n : Section) :
    ∀ ss : List Section, pid ∉ forestIds ss →
      childAppendedAt pid n ss = ss := by
  refine forestIds.induct
    (fun s => pid ∉ sectionIds s → childAppendedNode pid n s = s)
    (fun ts => pid ∉ forestIds ts → childAppendedAt pid n ts = ts)
    ?_ ?_ ?_
  · intro d t c st cs ih h
    simp only [sectionIds, List.mem_cons] at h
    push_neg at h
    obtain ⟨h1, h2⟩ := h
    have h1x : ¬ d = pid := fun e => h1 e.symm
    simp only [childAppendedNode, if_neg h1x, ih h2, List.append_nil]
  · intro _
    rfl
  · intro s rest ih1 ih2 h
    simp only [forestIds, List.mem_append] at h
    push_neg at h
    simp only [childAppendedAt, ih1 h.1, ih2 h.2]

end CV

namespace CV

theorem addRec_ids_mem (pid : String) (n : Section) :
    ∀ ss : List Section, ∀ x ∈ forestIds (addSectionRecursive pid n ss),
      x ∈ forestIds ss ∨ x ∈ sectionIds n := by
  refine forestIds.induct
    (fun s => ∀ x ∈ sectionIds (addSectionNode pid n s),
      x ∈ sectionIds s ∨ x ∈ sectionIds n)
    (fun ts => ∀ x ∈ forestIds (addSectionRecursive pid n ts),
      x ∈ forestIds ts ∨ x ∈ sectionIds n)
    ?_ ?_ ?_
  · intro d t c st cs ih x hx
    by_cases hm : d = pid
    · simp only [addSectionNode, if_pos hm, sectionIds, forestIds_append,
        forestIds, List.append_nil, List.mem_cons, List.mem_append] at hx
      rcases hx with h | h | h
      · exact Or.inl (by simp [sectionIds, h])
      · exact Or.inl (by simp [sectionIds, h])
      · exact Or.inr h
    · simp only [addSectionNode, if_neg hm] at hx
      by_cases hc : cs.length > 0
      · rw [if_pos hc] at hx
        simp only [sectionIds, List.mem_cons] at hx
        rcases hx with h | h
        · exact Or.inl (by simp [sectionIds, h])
        · rcases ih x h with h2 | h2
          · exact Or.inl (by simp [sectionIds, h2])
          · exact Or.inr h2
      · rw [if_neg hc] at hx
        exact Or.inl hx
  · intro x hx
    exact Or.inl hx
  · intro s rest ih1 ih2 x hx
    simp only [addSectionRecursive, forestIds, List.mem_append] at hx
    rcases hx with h | h
    · rcases ih1 x h with h2 | h2
      · exact Or.inl (by simp [forestIds, h2])
      · exact Or.inr h2
    · rcases ih2 x h with h2 | h2
      · exact Or.inl (by simp [forestIds, h2])
      · exact Or.inr h2

theorem addNode_ids_mem (pid : String) (n : Section) (s : Section) :
    ∀ x ∈ sectionIds (addSectionNode pid n s),
      x ∈ sectionIds s ∨ x ∈ sectionIds n := by
  intro x hx
  have h1 : x ∈ forestIds (addSectionRecursive pid n [s]) := by
    simp only [addSectionRecursive, forestIds, List.append_nil]
    exact hx
  have h2 := addRec_ids_mem pid n [s] x h1
  simpa only [forestIds, List.append_nil] using h2

end CV

namespace CV

theorem addRec_ids_nodup (pid : String) (n : Section)
    (hn : (sectionIds n).Nodup) :
    ∀ ss : List Section, (forestIds ss).Nodup →
      (∀ x ∈ sectionIds n, x ∉ forestIds ss) →
      (forestIds (addSectionRecursive pid n ss)).Nodup := by
  refine forestIds.induct
    (fun s => (sectionIds s).Nodup → (∀ x ∈ sectionIds n, x ∉ sectionIds s) →
      (sectionIds (addSectionNode pid n s)).Nodup)
    (fun ts => (forestIds ts).Nodup → (∀ x ∈ sectionIds n, x ∉ forestIds ts) →
      (forestIds (addSectionRecursive pid n ts)).Nodup)
    ?_ ?_ ?_
  · intro d t c st cs ih h1 h2
    simp only [sectionIds, List.nodup_cons] at h1
    obtain ⟨hd, hcs⟩ := h1
    have hdn : d ∉ sectionIds n := by
      intro hmem
      exact h2 d hmem (by simp [sectionIds])
    have h2cs : ∀ x ∈ sectionIds n, x ∉ forestIds cs := by
      intro x hx hmem
      exact h2 x hx (by simp [sectionIds, hmem])
    by_cases hm : d = pid
    · simp only [addSectionNode, if_pos hm, sectionIds, forestIds_append,
        forestIds, List.append_nil, List.nodup_cons, List.nodup_append]
      refine ⟨?_, hcs, hn, ?_⟩
      · simp only [List.mem_append]
        push_neg
        exact ⟨hd, hdn⟩
      · intro x hx hxn
        exact h2cs x hxn hx
    · simp only [addSectionNode, if_neg hm]
      by_cases hc : cs.length > 0
      · rw [if_pos hc]
        simp only [sectionIds, List.nodup_cons]
        refine ⟨?_, ih hcs h2cs⟩
        intro hmem
        rcases addRec_ids_mem pid n cs d hmem with h | h
        · exact hd h
        · exact hdn h
      · rw [if_neg hc]
        simp only [sectionIds, List.nodup_cons]
        exact ⟨hd, hcs⟩
  · intro _ _
    simp [addSectionRecursive, forestIds]
  · intro s rest ih1 ih2 h1 h2
    simp only [forestIds, List.nodup_append] at h1
    obtain ⟨ha, hb, hdisj⟩ := h1
    have h2s : ∀ x ∈ sectionIds n, x ∉ sectionIds s := by
      intro x hx hmem
      exact h2 x hx (by simp [forestIds, hmem])
    have h2r : ∀ x ∈ sectionIds n, x ∉ forestIds rest := by
      intro x hx hmem
      exact h2 x hx (by simp [forestIds, hmem])
    simp only [addSectionRecursive, forestIds, List.nodup_append]
    by_cases hp : pid ∈ sectionIds s
    · have hrest : addSectionRecursive pid n rest = rest :=
        addRec_miss pid n rest (fun hmem => hdisj hp hmem)
      rw [hrest]
      refine ⟨ih1 ha h2s, hb, ?_⟩
      intro x hx hxr
      rcases addNode_ids_mem pid n s x hx with h | h
      · exact hdisj h hxr
      · exact h2r x h hxr
    · have hnode : addSectionNode pid n s = s := addNode_miss pid n s hp
      rw [hnode]
      refine ⟨ha, ih2 hb h2r, ?_⟩
      intro x hx hxr
      rcases addRec_ids_mem pid n rest x hxr with h | h
      · exact hdisj hx h
      · exact h2s x h hx

theorem addRec_sublist (pid : String) (n : Section) :
    ∀ ss : List Section,
      List.Sublist (forestIds ss) (forestIds (addSectionRecursive pid n ss)) := by
  refine forestIds.induct
    (fun s => List.Sublist (sectionIds s) (sectionIds (addSectionNode pid n s)))
    (fun ts => List.Sublist (forestIds ts) (forestIds (addSectionRecursive pid n ts)))
    ?_ ?_ ?_
  · intro d t c st cs ih
    by_cases hm : d = pid
    · simp only [addSectionNode, if_pos hm, sectionIds, forestIds_append]
      exact List.Sublist.cons₂ d (List.sublist_append_left _ _)
    · simp only [addSectionNode, if_neg hm]
      by_cases hc : cs.length > 0
      · rw [if_pos hc]
        simp only [sectionIds]
        exact List.Sublist.cons₂ d ih
      · rw [if_neg hc]
  · simp [addSectionRecursive]
  · intro s rest ih1 ih2
    simp only [addSectionRecursive, forestIds]
    exact List.Sublist.append ih1 ih2

theorem update_ids_eq (i : String) (u : SectionUpdates)
    (h1 : u.id = none) (h2 : u.children = none) :
    ∀ ss : List Section,
      forestIds (updateSectionRecursive i u ss) = forestIds ss := by
  refine forestIds.induct
    (fun s => sectionIds (updateSectionNode i u s) = sectionIds s)
    (fun ts => forestIds (updateSectionRecursive i u ts) = forestIds ts)
    ?_ ?_ ?_
  · intro d t c st cs ih
    by_cases hm : d = i
    · simp only [updateSectionNode, if_pos hm, spreadMerge, h1, h2,
        Option.getD_none, sectionIds, Section.id, Section.children]
    · simp only [updateSectionNode, if_neg hm]
      by_cases hc : cs.length > 0
      · rw [if_pos hc]
        simp only [sectionIds, ih]
      · rw [if_neg hc]
  · rfl
  · intro s rest ih1 ih2
    simp only [updateSectionRecursive, forestIds, ih1, ih2]

end CV

namespace CV

theorem jsonToType_roundtrip (t : SectionType) :
    jsonToType (some (typeToJson t)) = some t := by
  cases t <;> rfl

theorem jsonToStyles_roundtrip (st : Styles) :
    jsonToStyles (stylesToJson st) = some st := by
  obtain ⟨bg, pad, mar, bs, bw, bc⟩ := st
  cases bs <;> cases bw <;> cases bc <;>
    simp [stylesToJson, jsonToStyles, lookupKey, asString]

theorem jsonToForest_roundtrip :
    ∀ ss : List Section, jsonToForest (forestToJson ss) = some ss := by
  refine forestIds.induct
    (fun s => jsonToSection (sectionToJson s) = some s)
    (fun ts => jsonToForest (forestToJson ts) = some ts)
    ?_ ?_ ?_
  · intro i t c st cs ih
    simp [sectionToJson, jsonToSection, lookupKey, asString,
      jsonToType_roundtrip, jsonToStyles_roundtrip, ih]
  · simp [forestToJson, jsonToForest]
  · intro s rest ih1 ih2
    simp [forestToJson, jsonToForest, ih1, ih2]

theorem cvData_roundtrip (d : CVData) :
    jsonToCVData (cvDataToJson d) = some d := by
  simp [cvDataToJson, jsonToCVData, lookupKey, jsonToForest_roundtrip]

theorem applyAddOps_nodup (ops : List AddOp) :
    ∀ d : CVData, (forestIds d.sections).Nodup →
      (ops.map AddOp.freshId).Nodup →
      (∀ o ∈ ops, o.freshId ∉ forestIds d.sections) →
      (forestIds (applyAddOps ops d).sections).Nodup ∧
      ∀ x ∈ forestIds (applyAddOps ops d).sections,
        x ∈ forestIds d.sections ∨ x ∈ ops.map AddOp.freshId := by
  induction ops with
  | nil =>
      intro d h1 _ _
      exact ⟨h1, fun x hx => Or.inl hx⟩
  | cons o ops ih =>
      intro d h1 h2 h3
      have hfresh : o.freshId ∉ forestIds d.sections :=
        h3 o (List.mem_cons_self o ops)
      have hone : sectionIds (newSection o.freshId) = [o.freshId] := rfl
      have hd' : (forestIds (addSection o.freshId o.parentId o.direction d).sections).Nodup := by
        refine addRec_ids_nodup o.parentId (newSection o.freshId) ?_ d.sections h1 ?_
        · rw [hone]
          exact List.nodup_singleton _
        · intro x hx
          rw [hone] at hx
          simp only [List.mem_singleton] at hx
          rw [hx]
          exact hfresh
      have hsub : ∀ x ∈ forestIds (addSection o.freshId o.parentId o.direction d).sections,
          x ∈ forestIds d.sections ∨ x = o.freshId := by
        intro x hx
        rcases addRec_ids_mem o.parentId (newSection o.freshId) d.sections x hx with h | h
        · exact Or.inl h
        · rw [hone] at h
          simp only [List.mem_singleton] at h
          exact Or.inr h
      have h2a : o.freshId ∉ ops.map AddOp.freshId := (List.nodup_cons.mp h2).1
      have h2b : (ops.map AddOp.freshId).Nodup := (List.nodup_cons.mp h2).2
      have h3' : ∀ p ∈ ops,
          p.freshId ∉ forestIds (addSection o.freshId o.parentId o.direction d).sections := by
        intro p hp hmem
        rcases hsub _ hmem with hin | heq
        · exact h3 p (List.mem_cons_of_mem o hp) hin
        · exact h2a (heq ▸ List.mem_map_of_mem AddOp.freshId hp)
      obtain ⟨ha, hb⟩ := ih (addSection o.freshId o.parentId o.direction d) hd' h2b h3'
      have hfold : applyAddOps (o :: ops) d
          = applyAddOps ops (addSection o.freshId o.parentId o.direction d) := rfl
      rw [hfold]
      refine ⟨ha, ?_⟩
      intro x hx
      rcases hb x hx with h | h
      · rcases hsub x h with h' | h'
        · exact Or.inl h'
        · exact Or.inr (by simp [h'])
      · exact Or.inr (List.mem_cons_of_mem _ h)

end CV

namespace CV

/-- C1: on a forest with globally unique identifiers, updating the node
with identifier `sectionId` by an updates object carrying only
`content = y` produces exactly the forest in which that node (and only
that node) has content `y`: every other node keeps its id, type, content
and styles, siblings and off-path subtrees are returned unchanged, and
ancestors are rebuilt only around the rewritten child. -/
theorem update_targeted_content (sectionId y : String) (ss : List Section)
    (h : (forestIds ss).Nodup) :
    updateSectionRecursive sectionId
        (SectionUpdates.mk none none (some y) none none) ss
      = contentReplacedAt sectionId y ss := by
  refine forestIds.induct
    (fun s => (sectionIds s).Nodup →
      updateSectionNode sectionId (SectionUpdates.mk none none (some y) none none) s
        = contentReplacedNode sectionId y s)
    (fun ts => (forestIds ts).Nodup →
      updateSectionRecursive sectionId (SectionUpdates.mk none none (some y) none none) ts
        = contentReplacedAt sectionId y ts)
    ?_ ?_ ?_ ss h
  · intro d t c st cs ih hn
    simp only [sectionIds, List.nodup_cons] at hn
    obtain ⟨hd, hcs⟩ := hn
    by_cases hm : d = sectionId
    · subst hm
      simp only [updateSectionNode, if_pos rfl, contentReplacedNode, if_pos rfl,
        if_true, spreadMerge, Option.getD_none, Option.getD_some, Section.id,
        Section.type, Section.content, Section.styles, Section.children]
      rw [contentReplacedAt_miss d y cs hd]
    · simp only [updateSectionNode, if_neg hm, contentReplacedNode, if_neg hm]
      by_cases hc : cs.length > 0
      · rw [if_pos hc, ih hcs]
      · rw [if_neg hc]
        have hnil : cs = [] := List.length_eq_zero.mp (by omega)
        subst hnil
        rfl
  · intro _
    rfl
  · intro s rest ih1 ih2 hn
    simp only [forestIds, List.nodup_append] at hn
    simp only [updateSectionRecursive, contentReplacedAt, ih1 hn.1, ih2 hn.2.1]

/-- C1 witness: a concrete two-level forest with unique identifiers on
which the targeted update of node `b` behaves as claimed. -/
theorem update_targeted_content_witness :
    (forestIds wForest).Nodup ∧
    updateSectionRecursive "b" (SectionUpdates.mk none none (some "y") none none) wForest
      = contentReplacedAt "b" "y" wForest :=
  ⟨by decide, update_targeted_content "b" "y" wForest (by decide)⟩

/-- C10: an updates object may carry the `children` field, and updating
node `sectionId` with it replaces that node's entire children sequence by
the supplied forest `c`, leaving every other node's fields unchanged; this
holds for every forest. -/
theorem update_children_replaces (sectionId : String) (c : List Section)
    (ss : List Section) :
    updateSectionRecursive sectionId
        (SectionUpdates.mk none none none none (some c)) ss
      = childrenReplacedAt sectionId c ss := by
  refine forestIds.induct
    (fun s =>
      updateSectionNode sectionId (SectionUpdates.mk none none none none (some c)) s
        = childrenReplacedNode sectionId c s)
    (fun ts =>
      updateSectionRecursive sectionId (SectionUpdates.mk none none none none (some c)) ts
        = childrenReplacedAt sectionId c ts)
    ?_ ?_ ?_ ss
  · intro d t cn st cs ih
    by_cases hm : d = sectionId
    · simp only [updateSectionNode, if_pos hm, childrenReplacedNode, if_pos hm,
        spreadMerge, Option.getD_none, Option.getD_some, Section.id,
        Section.type, Section.content, Section.styles, Section.children]
    · simp only [updateSectionNode, if_neg hm, childrenReplacedNode, if_neg hm]
      by_cases hc : cs.length > 0
      · rw [if_pos hc, ih]
      · rw [if_neg hc]
        have hnil : cs = [] := List.length_eq_zero.mp (by omega)
        subst hnil
        rfl
  · rfl
  · intro s rest ih1 ih2
    simp only [updateSectionRecursive, childrenReplacedAt, ih1, ih2]

end CV

namespace CV

theorem addRec_eq_spec (parentId : String) (n : Section) :
    ∀ ss : List Section, (forestIds ss).Nodup →
      addSectionRecursive parentId n ss = childAppendedAt parentId n ss := by
  refine forestIds.induct
    (fun s => (sectionIds s).Nodup →
      addSectionNode parentId n s = childAppendedNode parentId n s)
    (fun ts => (forestIds ts).Nodup →
      addSectionRecursive parentId n ts = childAppendedAt parentId n ts)
    ?_ ?_ ?_
  · intro d t c st cs ih hn
    simp only [sectionIds, List.nodup_cons] at hn
    obtain ⟨hd, hcs⟩ := hn
    by_cases hm : d = parentId
    · subst hm
      simp only [addSectionNode, if_pos rfl, childAppendedNode, if_pos rfl, if_true]
      rw [childAppendedAt_miss d n cs hd]
    · simp only [addSectionNode, if_neg hm, childAppendedNode, if_neg hm,
        List.append_nil]
      by_cases hc : cs.length > 0
      · rw [if_pos hc, ih hcs]
      · rw [if_neg hc]
        have hnil : cs = [] := List.length_eq_zero.mp (by omega)
        subst hnil
        rfl
  · intro _
    rfl
  · intro s rest ih1 ih2 hn
    simp only [forestIds, List.nodup_append] at hn
    simp only [addSectionRecursive, childAppendedAt, ih1 hn.1, ih2 hn.2.1]

/-- C2: on a forest with globally unique identifiers and a freshly minted
identifier, `addSection` produces exactly the forest in which the node
matching `parentId` has the new section appended at the end of its
children, with all existing children, their order, and every other node
preserved; and the resulting forest still has no duplicate identifier, so
the new section's identifier is distinct from every existing one. -/
theorem insertChild_appends (parentId freshId : String) (ss : List Section)
    (h1 : (forestIds ss).Nodup) (h2 : freshId ∉ forestIds ss) :
    addSectionRecursive parentId (newSection freshId) ss
        = childAppendedAt parentId (newSection freshId) ss ∧
    (forestIds (addSectionRecursive parentId (newSection freshId) ss)).Nodup := by
  constructor
  · exact addRec_eq_spec parentId (newSection freshId) ss h1
  · refine addRec_ids_nodup parentId (newSection freshId) ?_ ss h1 ?_
    · exact List.nodup_singleton _
    · intro x hx
      simp only [sectionIds, forestIds, List.mem_singleton, newSection] at hx
      rw [hx]
      exact h2

/-- C2 witness: inserting a section with fresh identifier `n1` under
parent `a` of the concrete witness forest. -/
theorem insertChild_appends_witness :
    ((forestIds wForest).Nodup ∧ "n1" ∉ forestIds wForest) ∧
    (addSectionRecursive "a" (newSection "n1") wForest
        = childAppendedAt "a" (newSection "n1") wForest ∧
      (forestIds (addSectionRecursive "a" (newSection "n1") wForest)).Nodup) :=
  ⟨⟨by decide, by decide⟩, insertChild_appends "a" "n1" wForest (by decide) (by decide)⟩

/-- C4: when the target identifier matches no node of the document's
forest, both `updateSection` and `addSection` return the document
unchanged, as a no-op rather than an error. -/
theorem missing_id_noop (targetId freshId : String) (u : SectionUpdates)
    (dir : Direction) (d : CVData)
    (h : targetId ∉ forestIds d.sections) :
    updateSection targetId u d = d ∧ addSection freshId targetId dir d = d := by
  constructor
  · show CVData.mk (updateSectionRecursive targetId u d.sections) = d
    rw [updateRec_miss targetId u d.sections h]
  · show CVData.mk (addSectionRecursive targetId (newSection freshId) d.sections) = d
    rw [addRec_miss targetId (newSection freshId) d.sections h]

/-- C4 witness: the identifier `z` matches no node of the witness
document, and both operations leave it unchanged. -/
theorem missing_id_noop_witness :
    ("z" ∉ forestIds wData.sections) ∧
    (updateSection "z" (SectionUpdates.mk none none (some "q") none none) wData = wData ∧
      addSection "n2" "z" Direction.vertical wData = wData) :=
  ⟨by decide,
    missing_id_noop "z" "n2" (SectionUpdates.mk none none (some "q") none none)
      Direction.vertical wData (by decide)⟩

/-- C5: starting from a freshly created document (one root section) and
applying any sequence of `addSection` calls whose minted identifiers are
pairwise distinct and distinct from the root's, the resulting forest
contains no two sections sharing an identifier, at any depth. -/
theorem identifier_uniqueness (rootId : String) (ops : List AddOp)
    (h : (rootId :: ops.map AddOp.freshId).Nodup) :
    (forestIds (applyAddOps ops (initialCVData rootId)).sections).Nodup := by
  obtain ⟨hr, hops⟩ := List.nodup_cons.mp h
  have h0 : forestIds (initialCVData rootId).sections = [rootId] := rfl
  refine (applyAddOps_nodup ops (initialCVData rootId) ?_ hops ?_).1
  · rw [h0]
    exact List.nodup_singleton _
  · intro o ho hmem
    rw [h0] at hmem
    simp only [List.mem_singleton] at hmem
    exact hr (hmem ▸ List.mem_map_of_mem AddOp.freshId ho)

/-- C5 witness: two inserts with fresh identifiers on a new document. -/
theorem identifier_uniqueness_witness :
    ("r" :: ([AddOp.mk "s1" "r" Direction.vertical,
        AddOp.mk "s2" "s1" Direction.horizontal].map AddOp.freshId)).Nodup ∧
    (forestIds (applyAddOps
        [AddOp.mk "s1" "r" Direction.vertical,
         AddOp.mk "s2" "s1" Direction.horizontal]
        (initialCVData "r")).sections).Nodup :=
  ⟨by decide,
    identifier_uniqueness "r"
      [AddOp.mk "s1" "r" Direction.vertical,
       AddOp.mk "s2" "s1" Direction.horizontal] (by decide)⟩

end CV

namespace CV

/-- C3: saving a document under an identifier and loading that identifier
returns exactly the serialized document, and reading the serialized form
back as a document recovers it field-for-field, including the order of
nested children at every depth. -/
theorem save_load_roundtrip (st : Store) (documentId : String) (d : CVData) :
    loadCV (saveCVData documentId d st) documentId = some (cvDataToJson d) ∧
    jsonToCVData (cvDataToJson d) = some d := by
  constructor
  · simp [loadCV, saveCVData, setItem, getItem, lookupKey]
  · exact cvData_roundtrip d

/-- C6 evidence: a stored record that is valid JSON of the wrong shape
(an empty object, not a well-formed document) is returned by the load
effect exactly as a successful load, although it does not parse as a
well-formed document; the code performs no validation and reports no
failure distinguishable from success. -/
theorem load_accepts_malformed_record :
    loadCV (setItem "cv_doc1" (Json.obj []) ([] : Store)) "doc1"
        = some (Json.obj []) ∧
    jsonToCVData (Json.obj []) = none := by
  constructor
  · simp [loadCV, setItem, getItem, lookupKey]
  · rfl

/-- C7 counterexample: an updates object may carry the `id` field, and the
update operation then replaces the identifier of the matched node, so
identifiers are not immutable under update with arbitrary fields. -/
theorem update_can_change_id :
    forestIds [Section.mk "a" SectionType.container ""
        (Styles.mk "transparent" "10px" "0px" none none none) []] = ["a"] ∧
    forestIds (updateSectionRecursive "a"
        (SectionUpdates.mk (some "b") none none none none)
        [Section.mk "a" SectionType.container ""
          (Styles.mk "transparent" "10px" "0px" none none none) []]) = ["b"] ∧
    ("a" : String) ≠ "b" :=
  ⟨rfl, rfl, by decide⟩

/-- C7 as amended: an update whose fields include neither `id` nor
`children` preserves the identifier sequence of the forest exactly, and
`addSection` keeps every existing identifier (in order) while only
inserting the new node's identifiers: every identifier of the resulting
forest is an identifier of the input forest or one of the inserted
section's. -/
theorem ids_preserved_amended (sectionId : String) (u : SectionUpdates)
    (parentId : String) (n : Section) (ss : List Section)
    (h1 : u.id = none) (h2 : u.children = none) :
    forestIds (updateSectionRecursive sectionId u ss) = forestIds ss ∧
    List.Sublist (forestIds ss)
      (forestIds (addSectionRecursive parentId n ss)) ∧
    ∀ x ∈ forestIds (addSectionRecursive parentId n ss),
      x ∈ forestIds ss ∨ x ∈ sectionIds n :=
  ⟨update_ids_eq sectionId u h1 h2 ss, addRec_sublist parentId n ss,
    addRec_ids_mem parentId n ss⟩

/-- C7 witness: a content-and-type update on the witness forest preserves
all identifiers, and an insert keeps the existing ones while introducing
only the new section's identifier. -/
theorem ids_preserved_amended_witness :
    ((SectionUpdates.mk none (some SectionType.text) (some "q") none none).id = none ∧
      (SectionUpdates.mk none (some SectionType.text) (some "q") none none).children = none) ∧
    (forestIds (updateSectionRecursive "b"
        (SectionUpdates.mk none (some SectionType.text) (some "q") none none) wForest)
        = forestIds wForest ∧
      List.Sublist (forestIds wForest)
        (forestIds (addSectionRecursive "a" (newSection "n3") wForest)) ∧
      ∀ x ∈ forestIds (addSectionRecursive "a" (newSection "n3") wForest),
        x ∈ forestIds wForest ∨ x ∈ sectionIds (newSection "n3")) :=
  ⟨⟨rfl, rfl⟩,
    ids_preserved_amended "b"
      (SectionUpdates.mk none (some SectionType.text) (some "q") none none)
      "a" (newSection "n3") wForest rfl rfl⟩

/-- C8: registering a new CV persists under its key a document whose
forest is exactly one root section of type container with empty content,
transparent background, nonzero padding (20px), zero margin and no border
keys, and loading the key returns that document. -/
theorem new_cv_initial_document (newCvId rootId : String) (st : Store) :
    loadCV (createNewCV newCvId rootId st) newCvId
        = some (cvDataToJson (initialCVData rootId)) ∧
    jsonToCVData (cvDataToJson (initialCVData rootId))
        = some (initialCVData rootId) ∧
    (initialCVData rootId).sections
        = [Section.mk rootId SectionType.container ""
            (Styles.mk "transparent" "20px" "0px" none none none) []] ∧
    ("20px" : String) ≠ "0px" := by
  refine ⟨?_, cvData_roundtrip (initialCVData rootId), rfl, by decide⟩
  simp [loadCV, createNewCV, setItem, getItem, lookupKey]

/-- C9 evidence: the JSON record persisted for a freshly minted section
and for the default root of a new document carries a `styles` object with
only the three keys backgroundColor, padding and margin; the three border
keys are absent, contradicting the claimed six-field persisted shape. -/
theorem fresh_styles_missing_border_fields :
    (∀ freshId : String, sectionToJson (newSection freshId)
        = Json.obj [("id", Json.str freshId), ("type", Json.str "container"),
            ("content", Json.str ""),
            ("styles", Json.obj [("backgroundColor", Json.str "transparent"),
              ("padding", Json.str "10px"), ("margin", Json.str "0px")]),
            ("children", Json.arr [])]) ∧
    (∀ rootId : String, cvDataToJson (initialCVData rootId)
        = Json.obj [("sections", Json.arr [Json.obj
            [("id", Json.str rootId), ("type", Json.str "container"),
             ("content", Json.str ""),
             ("styles", Json.obj [("backgroundColor", Json.str "transparent"),
               ("padding", Json.str "20px"), ("margin", Json.str "0px")]),
             ("children", Json.arr [])]])]) ∧
    lookupKey [("backgroundColor", Json.str "transparent"),
      ("padding", Json.str "10px"), ("margin", Json.str "0px")] "borderStyle" = none ∧
    lookupKey [("backgroundColor", Json.str "transparent"),
      ("padding", Json.str "10px"), ("margin", Json.str "0px")] "borderWidth" = none ∧
    lookupKey [("backgroundColor", Json.str "transparent"),
      ("padding", Json.str "10px"), ("margin", Json.str "0px")] "borderColor" = none :=
  ⟨fun _ => rfl, fun _ => rfl, rfl, rfl, rfl⟩

end CV
